import Mathlib

/-!
Shallow embedding of the sharex-rs upload server (`src/main.rs`).

Strings are modelled as `List Char` (`Str`), the filesystem as an
association list from paths to byte lists (a write conses a new entry,
so "last writer wins" like `std::fs::write` overwriting).  Randomness
(`rand::thread_rng` feeding `Alphanumeric.sample_string`) is modelled
as an abstract stream `rng : Nat → Fin 62` indexing into the exact
character set the `rand` crate uses for `Alphanumeric`.  HTTP status
codes are plain naturals (202, 400, 401, 404, 200).
-/

set_option autoImplicit false

namespace Sharex

abbrev Str := List Char

/-- Bytes on disk / in a multipart part, as naturals (values of `u8`). -/
abbrev Bytes := List Nat

/-- The filesystem under scrutiny: newest write first. -/
abbrev FS := List (Str × Bytes)

/-- Model of Rust std fs write: (over)writes the full contents at a path. -/
def fsWrite (p : Str) (b : Bytes) (fs : FS) : FS := (p, b) :: fs

/-- Model of Rust std fs read: `some` contents when the path is readable, else `none`. -/
def fsRead (p : Str) : FS → Option Bytes
  | [] => none
  | e :: rest => if e.1 = p then some e.2 else fsRead p rest

/-- The DEFAULT_MEDIA_DIRECTORY constant from `main.rs`. -/
def DEFAULT_MEDIA_DIRECTORY : Str := "www/media".toList

/-- Rust `str::split(sep)` on a single-character separator: keeps empty
segments, and splitting the empty string yields `[""]`. -/
def splitOnChar (sep : Char) : Str → List Str
  | [] => [[]]
  | c :: rest =>
    if c = sep then
      [] :: splitOnChar sep rest
    else
      match splitOnChar sep rest with
      | [] => [[c]]
      | s :: ss => (c :: s) :: ss

/-- Rust `str::trim_start_matches('/')`. -/
def trimStartMatches (m : Char) : Str → Str
  | [] => []
  | c :: rest => if c = m then trimStartMatches m rest else c :: rest

/-- Rust `Path::join` on Unix: an absolute right operand replaces the
left one, otherwise the components are joined with a separator. -/
def pathJoin (a b : Str) : Str :=
  if b.head? = some '/' then b else a ++ '/' :: b

/-- The character set of `rand::distributions::Alphanumeric`
(`GEN_ASCII_STR_CHARSET`). -/
def alphanumericChars : Str :=
  "ABCDEFGHIJKLMNOPQRSTUVWXYZabcdefghijklmnopqrstuvwxyz0123456789".toList

/-- Model of `Alphanumeric.sample_string(rng, n)`: `n` draws from the alphanumeric
character set, the `i`-th draw governed by `rng i`. -/
def sample_string (rng : Nat → Fin 62) (n : Nat) : Str :=
  (List.range n).map fun i => alphanumericChars.getD (rng i) 'a'

/-- The `generate_file_name` function from `main.rs`. -/
def generate_file_name (rng : Nat → Fin 62) : Str :=
  sample_string rng 10

/-- Rust `char::to_ascii_lowercase`. -/
def asciiLower (c : Char) : Char :=
  if 'A' ≤ c ∧ c ≤ 'Z' then Char.ofNat (c.toNat + 32) else c

/-- Rust `str::to_ascii_lowercase`. -/
def toAsciiLowercase (s : Str) : Str := s.map asciiLower

/-- One part of a multipart body: `field.name()`, `field.file_name()`
(both optional) and the part's bytes. -/
structure Part where
  name : Option Str
  file_name : Option Str
  content : Bytes
deriving DecidableEq

/-- The `File` struct of `main.rs` (original client name + payload). -/
structure File where
  name : Str
  bytes : Bytes
deriving DecidableEq

/-- Rust `Path::file_name` on Unix paths: the last component, provided
it is a normal component (`""` and `"."` components are dropped by the
component parser; a final `".."` yields `None`). -/
def file_name (s : Str) : Option Str :=
  let comps := (splitOnChar '/' s).filter fun c => decide (c ≠ [] ∧ c ≠ ['.'])
  match comps.getLast? with
  | none => none
  | some c => if c = ['.', '.'] then none else some c

/-- Helper on a REVERSED character list: split at the first `'.'`
(i.e. the last `'.'` of the original), returning the characters seen
before it (the reversed extension) and the rest (the reversed stem). -/
def splitLastDotRev : Str → Option (Str × Str)
  | [] => none
  | c :: rest =>
    if c = '.' then some ([], rest)
    else (splitLastDotRev rest).map fun p => (c :: p.1, p.2)

/-- Rust `Path::extension`: the part of the file name after its last
`'.'`, unless the file name has no `'.'` or begins with its only
`'.'` (then `None`). -/
def extension (s : Str) : Option Str :=
  (file_name s).bind fun f =>
    match splitLastDotRev f.reverse with
    | none => none
    | some (a, b) => if b = [] then none else some a.reverse

/-- The method `File::get_ext` from `main.rs`: `extension().unwrap_or_default()`
(the `to_str` conversion is total on our model strings). -/
def File.get_ext (f : File) : Str :=
  (extension f.name).getD []

/-- The `while let` loop of `upload`: scan the parts in order, stop at
the first whose field name (`unwrap_or_default`) equals `"file"` and
capture its file name and bytes. -/
def findFilePart : List Part → Option File
  | [] => none
  | p :: rest =>
    if p.name.getD [] = "file".toList then
      some ⟨p.file_name.getD [], p.content⟩
    else
      findFilePart rest

/-- The `upload` handler: returns `(status, body)` and the filesystem
after its side effect. -/
def upload (rng : Nat → Fin 62) (parts : List Part) (fs : FS) :
    (Nat × Str) × FS :=
  match findFilePart parts with
  | some file =>
    let fname := toAsciiLowercase (generate_file_name rng) ++ '.' :: file.get_ext
    let file_path := pathJoin DEFAULT_MEDIA_DIRECTORY fname
    ((202, fname), fsWrite file_path file.bytes fs)
  | none => ((400, "no file found".toList), fs)

/-- The `serve_media` handler: `(status, body bytes)`.  (The guessed
`Content-Type` header is not part of the modelled response.) -/
def serve_media (path : Str) (fs : FS) : Nat × Bytes :=
  let p := trimStartMatches '/' path
  let file_path := pathJoin DEFAULT_MEDIA_DIRECTORY p
  match fsRead file_path fs with
  | none => (404, [])
  | some contents => (200, contents)

/-- The value of the `api_key` header as the middleware sees it:
absent, present but not decodable as text (`to_str` fails), or a
decoded token string. -/
inductive HeaderVal where
  | valid (token : Str)
  | invalid
deriving DecidableEq

/-- The `check_auth` middleware.  `next` is the downstream handler
(it may touch the filesystem); the gate either runs it and returns its
response unchanged, or rejects with 401 without running it. -/
def check_auth {ρ : Type} (header : Option HeaderVal) (tokens : List Str)
    (next : FS → ρ × FS) (fs : FS) : Except Nat ρ × FS :=
  match header with
  | some (.valid token) =>
    if token ∈ tokens then
      let response := next fs
      (Except.ok response.1, response.2)
    else
      (Except.error 401, fs)
  | some .invalid => (Except.error 401, fs)
  | none => (Except.error 401, fs)

/-- The `get_tokens` function: read the `TOKENS` environment value
(`unwrap_or_default` when unset) and split on `","`.  The `HashSet` is
modelled as the list of segments (membership is all that matters). -/
def get_tokens (tokensEnv : Option Str) : List Str :=
  splitOnChar ',' (tokensEnv.getD [])

/-- The extension rule as the specification words it: the suffix of the
whole original filename after its last `'.'`, or empty when the name has
no `'.'`.  Kept separate from `extension` so the two can be compared. -/
def extAfterLastDot (s : Str) : Str :=
  match splitLastDotRev s.reverse with
  | none => []
  | some p => p.1.reverse

/-- A concrete randomness stream: every draw picks index 0, i.e. the
character `'A'`, so the generated base name is `"AAAAAAAAAA"`. -/
def rngA : Nat → Fin 62 := fun _ => 0

/-- A concrete multipart part named `"file"` carrying `a.PNG`. -/
def partPNG : Part := ⟨some "file".toList, some "a.PNG".toList, [137]⟩

/-- A concrete downstream handler with a visible side effect, used to
observe whether the auth gate let the request through. -/
def nextEx : FS → (Nat × Str) × FS :=
  fun fs => ((202, "ok".toList), fsWrite "www/media/e.png".toList [1] fs)

/-! ### Helper lemmas -/

/-- The lower-case alphanumeric characters. -/
def lowerAlnumChars : Str :=
  "abcdefghijklmnopqrstuvwxyz0123456789".toList

theorem fsRead_fsWrite_self (p : Str) (b : Bytes) (fs : FS) :
    fsRead p (fsWrite p b fs) = some b := by
  simp [fsRead, fsWrite]

theorem trimStartMatches_head_ne (m : Char) (s : Str) :
    (trimStartMatches m s).head? ≠ some m := by
  induction s with
  | nil => simp [trimStartMatches]
  | cons c rest ih =>
    by_cases h : c = m
    · simpa [trimStartMatches, h] using ih
    · simp [trimStartMatches, h]

theorem pathJoin_of_head_ne (a b : Str) (h : b.head? ≠ some '/') :
    pathJoin a b = a ++ '/' :: b := by
  simp [pathJoin, h]

theorem sampleChar_mem_lower :
    ∀ i : Fin 62, asciiLower (alphanumericChars.getD i 'a') ∈ lowerAlnumChars := by
  decide

theorem sampleChar_ne_slash :
    ∀ i : Fin 62, asciiLower (alphanumericChars.getD i 'a') ≠ '/' := by
  decide

theorem trimStartMatches_cons_ne (m c : Char) (t : Str) (h : ¬ c = m) :
    trimStartMatches m (c :: t) = c :: t := by
  simp [trimStartMatches, h]

theorem trim_genName (rng : Nat → Fin 62) (e : Str) :
    trimStartMatches '/' (toAsciiLowercase (generate_file_name rng) ++ '.' :: e)
      = toAsciiLowercase (generate_file_name rng) ++ '.' :: e := by
  have h10 : List.range 10 = 0 :: [1, 2, 3, 4, 5, 6, 7, 8, 9] := rfl
  simp only [toAsciiLowercase, generate_file_name, sample_string, h10,
    List.map_cons, List.cons_append]
  exact trimStartMatches_cons_ne _ _ _ (sampleChar_ne_slash (rng 0))

theorem length_lowName (rng : Nat → Fin 62) :
    (toAsciiLowercase (generate_file_name rng)).length = 10 := by
  simp [toAsciiLowercase, generate_file_name, sample_string]

theorem mem_lowName (rng : Nat → Fin 62) {c : Char}
    (hc : c ∈ toAsciiLowercase (generate_file_name rng)) :
    c ∈ lowerAlnumChars := by
  simp only [toAsciiLowercase, generate_file_name, sample_string,
    List.mem_map, List.mem_range] at hc
  obtain ⟨x, ⟨i, _, rfl⟩, rfl⟩ := hc
  exact sampleChar_mem_lower (rng i)

theorem name_getD_ne {o : Option Str} (h : o ≠ some "file".toList) :
    o.getD [] ≠ "file".toList := by
  cases o with
  | none => intro hc; exact absurd hc (by decide)
  | some s => simpa using h

theorem findFilePart_of_no_file (parts : List Part)
    (h : ∀ p ∈ parts, p.name ≠ some "file".toList) :
    findFilePart parts = none := by
  induction parts with
  | nil => rfl
  | cons p rest ih =>
    have hp : p.name.getD [] ≠ "file".toList :=
      name_getD_ne (h p (List.mem_cons_self p rest))
    simp only [findFilePart, if_neg hp]
    exact ih fun q hq => h q (List.mem_cons_of_mem _ hq)

theorem findFilePart_first (pre : List Part) (p : Part) (post : List Part)
    (hpre : ∀ q ∈ pre, q.name ≠ some "file".toList)
    (hp : p.name = some "file".toList) :
    findFilePart (pre ++ p :: post) = some ⟨p.file_name.getD [], p.content⟩ := by
  induction pre with
  | nil => simp [findFilePart, hp]
  | cons q rest ih =>
    have hq : q.name.getD [] ≠ "file".toList :=
      name_getD_ne (hpre q (List.mem_cons_self q rest))
    simp only [List.cons_append, findFilePart, if_neg hq]
    exact ih fun r hr => hpre r (List.mem_cons_of_mem _ hr)

theorem splitOnChar_of_not_mem (sep : Char) (s : Str) (h : sep ∉ s) :
    splitOnChar sep s = [s] := by
  induction s with
  | nil => rfl
  | cons c rest ih =>
    have hc : ¬ c = sep := fun hcs => h (hcs ▸ List.mem_cons_self c rest)
    have hrest : sep ∉ rest := fun hm => h (List.mem_cons_of_mem _ hm)
    simp [splitOnChar, hc, ih hrest]

theorem splitLastDotRev_none {s : Str} (h : splitLastDotRev s = none) :
    '.' ∉ s := by
  induction s with
  | nil => simp
  | cons c rest ih =>
    by_cases hc : c = '.'
    · simp only [splitLastDotRev, if_pos hc] at h
      exact absurd h (by simp)
    · simp only [splitLastDotRev, if_neg hc, Option.map_eq_none'] at h
      intro hm
      rcases List.mem_cons.mp hm with hceq | hrest
      · exact hc hceq.symm
      · exact ih h hrest

theorem splitLastDotRev_some {s a b : Str}
    (h : splitLastDotRev s = some (a, b)) :
    s = a ++ '.' :: b := by
  induction s generalizing a b with
  | nil => exact absurd h (by simp [splitLastDotRev])
  | cons c rest ih =>
    by_cases hc : c = '.'
    · simp only [splitLastDotRev, if_pos hc] at h
      have h2 := Option.some.inj h
      have ha : a = [] := (congrArg Prod.fst h2).symm
      have hb : b = rest := (congrArg Prod.snd h2).symm
      subst ha; subst hb
      simp [hc]
    · simp only [splitLastDotRev, if_neg hc, Option.map_eq_some'] at h
      obtain ⟨⟨a1, b1⟩, hrec, heq⟩ := h
      have ha : a = c :: a1 := (congrArg Prod.fst heq).symm
      have hb : b = b1 := (congrArg Prod.snd heq).symm
      subst ha; subst hb
      simp [List.cons_append, ih hrec]

theorem splitLastDotRev_of_not_mem {s : Str} (h : '.' ∉ s) :
    splitLastDotRev s = none := by
  cases hsp : splitLastDotRev s with
  | none => rfl
  | some p =>
    have he : s = p.1 ++ '.' :: p.2 := splitLastDotRev_some (by rw [hsp])
    exact absurd (show ('.' : Char) ∈ s by rw [he]; simp) h

theorem file_name_simple (N : Str) (hs : '/' ∉ N) (hne : N ≠ [])
    (hd : N ≠ ['.']) (hdd : N ≠ ['.', '.']) :
    file_name N = some N := by
  have hsplit := splitOnChar_of_not_mem '/' N hs
  simp [file_name, hsplit, List.filter, hne, hd, hdd]

theorem extension_simple (N : Str) (hs : '/' ∉ N) (hh : N.head? ≠ some '.') :
    (extension N).getD [] = extAfterLastDot N := by
  cases N with
  | nil => rfl
  | cons c t =>
    have hc : ¬ c = '.' := fun hc0 => hh (by simp [hc0])
    have hne : c :: t ≠ ([] : Str) := by simp
    have hd : c :: t ≠ (['.'] : Str) := by simp [hc]
    have hdd : c :: t ≠ (['.', '.'] : Str) := by simp [hc]
    have hf := file_name_simple (c :: t) hs hne hd hdd
    simp only [extension, hf, Option.some_bind]
    cases hsp : splitLastDotRev (c :: t).reverse with
    | none =>
      have hsp2 : splitLastDotRev (t.reverse ++ [c]) = none := by
        simpa using hsp
      simp [extAfterLastDot, hsp2]
    | some p =>
      obtain ⟨a, bb⟩ := p
      have hrev : (c :: t).reverse = a ++ '.' :: bb := splitLastDotRev_some hsp
      have hbb : bb ≠ [] := by
        intro h0
        subst h0
        have hN : c :: t = '.' :: a.reverse := by
          have h1 := congrArg List.reverse hrev
          simpa using h1
        injection hN with h1 h2
        exact hc h1
      have hsp2 : splitLastDotRev (t.reverse ++ [c]) = some (a, bb) := by
        simpa using hsp
      simp [extAfterLastDot, hsp2, hbb]

/-! ### The claims -/

/-- C1: a request whose auth header decodes to a token in the configured
set passes the gate and gets the downstream response (and downstream
filesystem effect) unchanged; a token outside the set, an undecodable
header, and an absent header each yield 401 with the filesystem
untouched (the downstream handler is not invoked). -/
theorem C1_auth_gate {ρ : Type} (tokens : List Str) (header : Option HeaderVal)
    (next : FS → ρ × FS) (fs : FS) :
    (∀ t, header = some (HeaderVal.valid t) → t ∈ tokens →
      check_auth header tokens next fs = (Except.ok (next fs).1, (next fs).2))
    ∧ (∀ t, header = some (HeaderVal.valid t) → t ∉ tokens →
      check_auth header tokens next fs = (Except.error 401, fs))
    ∧ (header = some HeaderVal.invalid →
      check_auth header tokens next fs = (Except.error 401, fs))
    ∧ (header = none →
      check_auth header tokens next fs = (Except.error 401, fs)) := by
  refine ⟨?_, ?_, ?_, ?_⟩
  · rintro t rfl ht
    simp [check_auth, ht]
  · rintro t rfl ht
    simp [check_auth, ht]
  · rintro rfl
    rfl
  · rintro rfl
    rfl

/-- Witness for C1 at `TOKENS = abc123`. -/
theorem C1_auth_gate_witness :
    check_auth (some (HeaderVal.valid "abc123".toList)) ["abc123".toList] nextEx []
      = (Except.ok (nextEx []).1, (nextEx []).2)
    ∧ check_auth (some (HeaderVal.valid "wrong-token".toList)) ["abc123".toList] nextEx []
      = (Except.error 401, [])
    ∧ check_auth (some HeaderVal.invalid) ["abc123".toList] nextEx []
      = (Except.error 401, [])
    ∧ check_auth none ["abc123".toList] nextEx []
      = (Except.error 401, []) :=
  ⟨(C1_auth_gate ["abc123".toList] _ nextEx []).1 _ rfl (by decide),
   (C1_auth_gate ["abc123".toList] _ nextEx []).2.1 _ rfl (by decide),
   (C1_auth_gate ["abc123".toList] _ nextEx []).2.2.1 rfl,
   (C1_auth_gate ["abc123".toList] _ nextEx []).2.2.2 rfl⟩

/-- C2: when the multipart body yields a file part with payload `B`,
the upload responds 202, the file written under the media root holds
exactly `B`, and serving the returned storage name yields `(200, B)`. -/
theorem C2_upload_roundtrip (rng : Nat → Fin 62) (parts : List Part) (fs : FS)
    (f : File) (h : findFilePart parts = some f) :
    (upload rng parts fs).1.1 = 202
    ∧ fsRead (pathJoin DEFAULT_MEDIA_DIRECTORY (upload rng parts fs).1.2)
        (upload rng parts fs).2 = some f.bytes
    ∧ serve_media (upload rng parts fs).1.2 (upload rng parts fs).2
      = (200, f.bytes) := by
  have hu : upload rng parts fs
      = ((202, toAsciiLowercase (generate_file_name rng) ++ '.' :: f.get_ext),
         fsWrite (pathJoin DEFAULT_MEDIA_DIRECTORY
           (toAsciiLowercase (generate_file_name rng) ++ '.' :: f.get_ext))
           f.bytes fs) := by
    simp [upload, h]
  rw [hu]
  refine ⟨rfl, fsRead_fsWrite_self _ _ _, ?_⟩
  simp only [serve_media, trim_genName]
  rw [fsRead_fsWrite_self]

/-- Witness for C2: uploading `a.PNG` with payload `[137]` round-trips. -/
theorem C2_upload_roundtrip_witness :
    (upload rngA [partPNG] []).1.1 = 202
    ∧ fsRead (pathJoin DEFAULT_MEDIA_DIRECTORY (upload rngA [partPNG] []).1.2)
        (upload rngA [partPNG] []).2 = some [137]
    ∧ serve_media (upload rngA [partPNG] []).1.2 (upload rngA [partPNG] []).2
      = (200, [137]) :=
  C2_upload_roundtrip rngA [partPNG] [] ⟨"a.PNG".toList, [137]⟩ (by decide)

/-- C3 (the code contradicts it): with `TOKENS` unset or empty, the
split yields the singleton set containing the empty string, not the
empty set; consequently the gate accepts an empty-string credential
instead of denying all requests. -/
theorem C3_empty_tokens_not_deny_all :
    get_tokens none = [[]]
    ∧ get_tokens (some []) = [[]]
    ∧ get_tokens none ≠ []
    ∧ check_auth (some (HeaderVal.valid [])) (get_tokens none) nextEx []
      = (Except.ok (nextEx []).1, (nextEx []).2) := by
  refine ⟨rfl, rfl, by decide, ?_⟩
  simp [check_auth, get_tokens, splitOnChar]

/-- C5: a multipart body with no part named `"file"` gets status 400
with body `no file found`, and the filesystem is left unchanged. -/
theorem C5_no_file_part (rng : Nat → Fin 62) (parts : List Part) (fs : FS)
    (h : ∀ p ∈ parts, p.name ≠ some "file".toList) :
    upload rng parts fs = ((400, "no file found".toList), fs) := by
  simp [upload, findFilePart_of_no_file parts h]

/-- Witness for C5: one part named `"other"` and one unnamed part. -/
theorem C5_no_file_part_witness :
    upload rngA [⟨some "other".toList, none, [1]⟩, ⟨none, some "x.png".toList, [2]⟩] []
      = ((400, "no file found".toList), []) :=
  C5_no_file_part rngA
    [⟨some "other".toList, none, [1]⟩, ⟨none, some "x.png".toList, [2]⟩] []
    (by decide)

/-- C4 fails as stated: only the random base is lower-cased; the
extension is kept verbatim.  Uploading `a.PNG` under the all-`'A'`
randomness stream stores `aaaaaaaaaa.PNG`, whose suffix after the dot
is `PNG`, not the lower-cased `png` the claim requires. -/
theorem C4_counterexample :
    (upload rngA [partPNG] []).1.2 = "aaaaaaaaaa.PNG".toList
    ∧ List.drop 11 ((upload rngA [partPNG] []).1.2) = "PNG".toList
    ∧ toAsciiLowercase "PNG".toList = "png".toList
    ∧ "PNG".toList ≠ "png".toList := by
  decide

/-- C4 (amended): the storage name is ten lower-case alphanumeric
characters, then `'.'`, then the extension of the original filename
taken verbatim (not lower-cased). -/
theorem C4_storage_name_shape (rng : Nat → Fin 62) (parts : List Part) (fs : FS)
    (f : File) (h : findFilePart parts = some f) :
    ∃ g : Str,
      (upload rng parts fs).1.2 = g ++ '.' :: f.get_ext
      ∧ g.length = 10
      ∧ ∀ c ∈ g, c ∈ lowerAlnumChars := by
  refine ⟨toAsciiLowercase (generate_file_name rng), ?_, length_lowName rng, ?_⟩
  · simp [upload, h]
  · intro c hc
    exact mem_lowName rng hc

/-- Witness for the amended C4 at a concrete upload of `a.PNG`. -/
theorem C4_storage_name_shape_witness :
    ∃ g : Str,
      (upload rngA [partPNG] []).1.2
        = g ++ '.' :: File.get_ext ⟨"a.PNG".toList, [137]⟩
      ∧ g.length = 10
      ∧ ∀ c ∈ g, c ∈ lowerAlnumChars :=
  C4_storage_name_shape rngA [partPNG] [] ⟨"a.PNG".toList, [137]⟩ (by decide)

/-- C6: the media handler answers 404 with an empty body exactly when
the resolved file is unreadable, and 200 with the file's full bytes
when it is readable. -/
theorem C6_media_status (path : Str) (fs : FS) :
    (fsRead (pathJoin DEFAULT_MEDIA_DIRECTORY (trimStartMatches '/' path)) fs = none
      → serve_media path fs = (404, []))
    ∧ ∀ b : Bytes,
      fsRead (pathJoin DEFAULT_MEDIA_DIRECTORY (trimStartMatches '/' path)) fs = some b
      → serve_media path fs = (200, b) := by
  constructor
  · intro h
    simp [serve_media, h]
  · intro b h
    simp [serve_media, h]

/-- Witness for C6: a missing file gives 404, a stored file is served. -/
theorem C6_media_status_witness :
    serve_media "missing.png".toList [] = (404, [])
    ∧ serve_media "x.png".toList [("www/media/x.png".toList, [5])] = (200, [5]) :=
  ⟨(C6_media_status "missing.png".toList []).1 (by decide),
   (C6_media_status "x.png".toList [("www/media/x.png".toList, [5])]).2 [5] (by decide)⟩

/-- C7: for every input path `P` the media handler's answer is
determined by reading exactly `<media_root>/P'`, where `P'` is `P`
stripped of leading `'/'` characters.  The quantification includes
paths with parent-directory segments; the second conjunct makes the
non-rejection of `".."` explicit. -/
theorem C7_resolved_path (path : Str) (fs : FS) :
    (serve_media path fs =
      match fsRead (DEFAULT_MEDIA_DIRECTORY ++ '/' :: trimStartMatches '/' path) fs with
      | none => (404, [])
      | some contents => (200, contents))
    ∧ (serve_media ('.' :: '.' :: '/' :: path) fs =
      match fsRead (DEFAULT_MEDIA_DIRECTORY ++ '/' :: '.' :: '.' :: '/' :: path) fs with
      | none => (404, [])
      | some contents => (200, contents)) := by
  constructor
  · simp only [serve_media,
      pathJoin_of_head_ne DEFAULT_MEDIA_DIRECTORY _ (trimStartMatches_head_ne '/' path)]
  · have htrim : trimStartMatches '/' ('.' :: '.' :: '/' :: path)
        = '.' :: '.' :: '/' :: path :=
      trimStartMatches_cons_ne '/' '.' _ (by decide)
    have hhead : ('.' :: '.' :: '/' :: path).head? ≠ some '/' := by
      intro hcon
      have hcc : ('.' : Char) = '/' := Option.some.inj hcon
      exact absurd hcc (by decide)
    simp only [serve_media, htrim, pathJoin_of_head_ne DEFAULT_MEDIA_DIRECTORY _ hhead]

/-- C8 fails as stated: for a dotfile such as `.gitignore` the suffix
after the last `'.'` of the name is `gitignore`, but the code (via
Rust `Path::extension`) produces the empty extension. -/
theorem C8_counterexample :
    extAfterLastDot ".gitignore".toList = "gitignore".toList
    ∧ File.get_ext ⟨".gitignore".toList, []⟩ = []
    ∧ "gitignore".toList ≠ ([] : Str) := by
  decide

/-- C8 (amended): for an original filename without `'/'` and not
beginning with `'.'`, the extension used is the suffix after the last
`'.'` of the name (empty when there is no `'.'`); and when the name has
no `'.'` at all the storage name ends in a trailing dot. -/
theorem C8_extension_rule (N : Str) (b : Bytes) (hs : '/' ∉ N)
    (hh : N.head? ≠ some '.') :
    File.get_ext ⟨N, b⟩ = extAfterLastDot N
    ∧ ('.' ∉ N → ∀ (rng : Nat → Fin 62) (fs : FS),
        ∃ g : Str,
          (upload rng [⟨some "file".toList, some N, b⟩] fs).1.2 = g ++ ['.']) := by
  refine ⟨extension_simple N hs hh, ?_⟩
  intro hdot rng fs
  refine ⟨toAsciiLowercase (generate_file_name rng), ?_⟩
  have hfind : findFilePart [⟨some "file".toList, some N, b⟩] = some ⟨N, b⟩ := by
    simp [findFilePart]
  have hnone : splitLastDotRev N.reverse = none :=
    splitLastDotRev_of_not_mem (by simpa using hdot)
  have hext : File.get_ext ⟨N, b⟩ = [] := by
    have h1 : (extension N).getD [] = extAfterLastDot N := extension_simple N hs hh
    have h2 : extAfterLastDot N = [] := by simp [extAfterLastDot, hnone]
    exact h1.trans h2
  rw [upload, hfind]
  simp [hext]

/-- Witness for the amended C8: the ordinary name `cat.png` follows the
spec's suffix rule, and the dotless name `noext` yields a trailing dot. -/
theorem C8_extension_rule_witness :
    File.get_ext ⟨"cat.png".toList, [1]⟩ = extAfterLastDot "cat.png".toList
    ∧ ∃ g : Str,
        (upload rngA [⟨some "file".toList, some "noext".toList, [2]⟩] []).1.2
          = g ++ ['.'] :=
  ⟨(C8_extension_rule "cat.png".toList [1] (by decide) (by decide)).1,
   (C8_extension_rule "noext".toList [2] (by decide) (by decide)).2 (by decide) rngA []⟩

/-- C9: the upload handler's whole behaviour (response and filesystem
effect) is that of the first part named `"file"`; parts before it (not
named `"file"`) and arbitrary parts after it have no effect. -/
theorem C9_first_file_part (rng : Nat → Fin 62) (fs : FS)
    (pre post : List Part) (p : Part)
    (hpre : ∀ q ∈ pre, q.name ≠ some "file".toList)
    (hp : p.name = some "file".toList) :
    upload rng (pre ++ p :: post) fs = upload rng [p] fs := by
  have h1 := findFilePart_first pre p post hpre hp
  have h2 : findFilePart [p] = some ⟨p.file_name.getD [], p.content⟩ := by
    simp [findFilePart, hp]
  rw [upload, upload, h1, h2]

/-- Witness for C9: a leading `"other"` part and a trailing second
`"file"` part change nothing. -/
theorem C9_first_file_part_witness :
    upload rngA ([⟨some "other".toList, none, [9]⟩] ++ partPNG
        :: [⟨some "file".toList, some "b.txt".toList, [3]⟩]) []
      = upload rngA [partPNG] [] :=
  C9_first_file_part rngA [] [⟨some "other".toList, none, [9]⟩]
    [⟨some "file".toList, some "b.txt".toList, [3]⟩] partPNG
    (by decide) (by decide)

/-- C10: a `TOKENS` value with an empty segment between commas puts the
empty string into the token set, and an empty-string credential then
passes the gate. -/
theorem C10_empty_segment {ρ : Type} (v : Str) (next : FS → ρ × FS) (fs : FS)
    (h : [] ∈ splitOnChar ',' v) :
    [] ∈ get_tokens (some v)
    ∧ check_auth (some (HeaderVal.valid [])) (get_tokens (some v)) next fs
      = (Except.ok (next fs).1, (next fs).2) := by
  have hm : [] ∈ get_tokens (some v) := by simpa [get_tokens] using h
  exact ⟨hm, by simp [check_auth, hm]⟩

/-- Witness for C10 at `TOKENS = "a,"` (trailing comma). -/
theorem C10_empty_segment_witness :
    [] ∈ get_tokens (some "a,".toList)
    ∧ check_auth (some (HeaderVal.valid [])) (get_tokens (some "a,".toList)) nextEx []
      = (Except.ok (nextEx []).1, (nextEx []).2) :=
  C10_empty_segment "a,".toList nextEx [] (by decide)

end Sharex
